import Mathlib

/-!
Verification development for the siRNA prediction script of this repository
(`siRNA_predict.py`).  The script normalizes an input DNA/RNA sequence,
scores every 19-character sliding window with the eight Reynolds et al. 2004
rules, clamps negative scores to 0, collects windows into ten score buckets,
and renders the buckets as a tab-delimited table, optionally post-processed
into CSV.  Sequences are embedded as `List Char`; every definition below is a
line-by-line translation of the script.
-/

/-- One stored bucket entry: the window together with its 1-based start
offset — the tuple `(seq, i + 1)` appended on line 109 of the script. -/
abbrev SiEntry := List Char × Nat

/-- Test whether a list begins with the pattern `pat`. -/
def leadsWith : List Char → List Char → Bool
  | [], _ => true
  | _ :: _, [] => false
  | p :: ps, c :: cs => p == c && leadsWith ps cs

/-- Test whether `pat` occurs contiguously inside the second list: the
`len(findall(pat, sequence)) > 0` check of the script for a literal
pattern. -/
def containsSeq (pat : List Char) : List Char → Bool
  | [] => leadsWith pat []
  | c :: rest => leadsWith pat (c :: rest) || containsSeq pat rest

/-- The window scoring function, translated from lines 52-87 of
`siRNA_predict.py`.  Characters are fetched with `List.getD`; the scanner
only ever passes windows of length exactly 19, where every index used here
is in range. -/
def si_score (sequence : List Char) : Int :=
  -- Criteria 1: moderate to low GC content (count of G plus count of C in [6, 10])
  let gc_count : Nat := sequence.count 'G' + sequence.count 'C'
  let s1 : Int := if 6 ≤ gc_count ∧ gc_count ≤ 10 then 1 else 0
  -- Criteria 2: one point per A or T among `sequence[14:]`
  let terminal_at_count : Nat :=
    (sequence.drop 14).count 'A' + (sequence.drop 14).count 'T'
  let s2 : Int := s1 + terminal_at_count
  -- Criteria 3: a stretch of four identical bases
  let s3 : Int :=
    if containsSeq ['A', 'A', 'A', 'A'] sequence
        || containsSeq ['T', 'T', 'T', 'T'] sequence
        || containsSeq ['G', 'G', 'G', 'G'] sequence
        || containsSeq ['C', 'C', 'C', 'C'] sequence
    then s2 - 1 else s2
  -- Criteria 4: A at index 18
  let s4 : Int := if sequence.getD 18 '?' = 'A' then s3 + 1 else s3
  -- Criteria 5: A at index 2
  let s5 : Int := if sequence.getD 2 '?' = 'A' then s4 + 1 else s4
  -- Criteria 6: T at index 9
  let s6 : Int := if sequence.getD 9 '?' = 'T' then s5 + 1 else s5
  -- Criteria 7: G or C at index 18
  let s7 : Int :=
    if sequence.getD 18 '?' = 'G' ∨ sequence.getD 18 '?' = 'C' then s6 - 1 else s6
  -- Criteria 8: G at index 12
  let s8 : Int := if sequence.getD 12 '?' = 'G' then s7 - 1 else s7
  s8

/-- Line 108 of the script: `score = score if score >= 0 else 0`. -/
def clampScore (x : Int) : Int := if 0 ≤ x then x else 0

/-- The bucket index a window is appended to (line 109 indexes
`si_seqs_list[score]` with the clamped score). -/
def bucketOf (w : List Char) : Nat := (clampScore (si_score w)).toNat

/-- Lines 105-107: every 19-character window of the sequence with its
1-based start offset. -/
def scanWindows (full_seq : List Char) : List SiEntry :=
  (List.range (full_seq.length - 18)).map
    (fun i => ((full_seq.drop i).take 19, i + 1))

/-- Line 109: append one scored entry to its bucket. -/
def bucketStep (bs : List (List SiEntry)) (e : SiEntry) : List (List SiEntry) :=
  bs.set (bucketOf e.1) (bs.getD (bucketOf e.1) [] ++ [e])

/-- Lines 104-109: the ten score buckets built by the scan loop. -/
def si_seqs_list (full_seq : List Char) : List (List SiEntry) :=
  (scanWindows full_seq).foldl bucketStep [[], [], [], [], [], [], [], [], [], []]

/-- The character at 1-based position `i` of a window, the position
numbering used by the specification's rule table. -/
def winPos (w : List Char) (i : Nat) : Char := w.getD (i - 1) '?'

/-- Rule 1 of the claim's table: +1 when the GC count over all 19 positions
lies in the closed range [6, 10]. -/
def gcContentRule (w : List Char) : Int :=
  if 6 ≤ w.count 'G' + w.count 'C' ∧ w.count 'G' + w.count 'C' ≤ 10 then 1 else 0

/-- Rule 2 of the claim's table: +1 per character equal to A or T among
positions 15-19 (the sublist of length 5 starting at position 15). -/
def terminalATRule (w : List Char) : Int :=
  (((w.drop 14).take 5).count 'A' + ((w.drop 14).take 5).count 'T' : Nat)

/-- Rule 3 of the claim's table: -1 when the window contains AAAA, TTTT,
GGGG, or CCCC. -/
def runPenaltyRule (w : List Char) : Int :=
  if containsSeq ['A', 'A', 'A', 'A'] w
      || containsSeq ['T', 'T', 'T', 'T'] w
      || containsSeq ['G', 'G', 'G', 'G'] w
      || containsSeq ['C', 'C', 'C', 'C'] w
  then -1 else 0

/-- Rule 4 of the claim's table: +1 when position 19 is A. -/
def pos19ARule (w : List Char) : Int := if winPos w 19 = 'A' then 1 else 0

/-- Rule 5 of the claim's table: +1 when position 3 is A. -/
def pos3ARule (w : List Char) : Int := if winPos w 3 = 'A' then 1 else 0

/-- Rule 6 of the claim's table: +1 when position 10 is T. -/
def pos10TRule (w : List Char) : Int := if winPos w 10 = 'T' then 1 else 0

/-- Rule 7 of the claim's table: -1 when position 19 is G or C. -/
def pos19GCRule (w : List Char) : Int :=
  if winPos w 19 = 'G' ∨ winPos w 19 = 'C' then -1 else 0

/-- Rule 8 of the claim's table: -1 when position 13 is G. -/
def pos13GRule (w : List Char) : Int := if winPos w 13 = 'G' then -1 else 0

/-- The algebraic sum of the eight independent rule contributions of the
claim's table, each rule evaluated against the unmodified window. -/
def reynoldsSum (w : List Char) : Int :=
  gcContentRule w + terminalATRule w + runPenaltyRule w + pos19ARule w
    + pos3ARule w + pos10TRule w + pos19GCRule w + pos13GRule w

lemma winPos19 (w : List Char) : winPos w 19 = w.getD 18 '?' := rfl

lemma winPos3 (w : List Char) : winPos w 3 = w.getD 2 '?' := rfl

lemma winPos10 (w : List Char) : winPos w 10 = w.getD 9 '?' := rfl

lemma winPos13 (w : List Char) : winPos w 13 = w.getD 12 '?' := rfl

lemma take5_drop14 (w : List Char) (h : w.length = 19) :
    (w.drop 14).take 5 = w.drop 14 :=
  List.take_of_length_le (by simp [List.length_drop, h])

set_option maxHeartbeats 1600000

/-- C1: for every 19-character window, the script's sequentially accumulated
score equals the algebraic sum of the eight independent rule contributions
of the specification's table, each evaluated on the unmodified window. -/
theorem si_score_is_rule_sum (w : List Char) (h : w.length = 19) :
    si_score w = reynoldsSum w := by
  simp only [si_score, reynoldsSum, gcContentRule, terminalATRule, runPenaltyRule,
    pos19ARule, pos3ARule, pos10TRule, pos19GCRule, pos13GRule,
    winPos19, winPos3, winPos10, winPos13, take5_drop14 w h]
  split_ifs <;> omega

/-- Witness for C1 at the all-A window, whose score is 6. -/
theorem si_score_is_rule_sum_witness :
    si_score (List.replicate 19 'A') = reynoldsSum (List.replicate 19 'A')
      ∧ si_score (List.replicate 19 'A') = 6 :=
  ⟨si_score_is_rule_sum (List.replicate 19 'A') (by decide), by decide⟩

lemma count_pair_le (a b : Char) (hab : a ≠ b) (l : List Char) :
    l.count a + l.count b ≤ l.length := by
  induction l with
  | nil => simp
  | cons c t ih =>
    simp only [List.count_cons, List.length_cons]
    by_cases h1 : c = a
    · simp [h1, hab]
      omega
    · have : (c == a) = false := by simp [h1]
      simp [this]
      split_ifs <;> omega

lemma si_score_le (w : List Char) (h : w.length = 19) : si_score w ≤ 9 := by
  have hd : (w.drop 14).length = 5 := by simp [List.length_drop, h]
  have hc : (w.drop 14).count 'A' + (w.drop 14).count 'T' ≤ 5 :=
    hd ▸ count_pair_le 'A' 'T' (by decide) (w.drop 14)
  simp only [si_score]
  split_ifs <;> omega

lemma clampScore_nonneg (x : Int) : 0 ≤ clampScore x := by
  unfold clampScore; split_ifs <;> omega

lemma bucketOf_lt_ten (w : List Char) (h : w.length = 19) : bucketOf w < 10 := by
  have h9 := si_score_le w h
  unfold bucketOf clampScore
  split_ifs <;> omega

lemma scanWindows_wlen (s : List Char) :
    ∀ e ∈ scanWindows s, e.1.length = 19 := by
  intro e he
  simp only [scanWindows, List.mem_map, List.mem_range] at he
  obtain ⟨i, hi, rfl⟩ := he
  simp only [List.length_take, List.length_drop]
  omega

/-- C4: for every 19-character window over any characters, the raw score is
at most 9, so the clamped score always lies in [0, 9] and the append into
the fixed list of ten buckets never indexes out of range. -/
theorem si_score_at_most_nine (w : List Char) (h : w.length = 19) :
    si_score w ≤ 9 ∧ 0 ≤ clampScore (si_score w)
      ∧ clampScore (si_score w) ≤ 9 ∧ bucketOf w < 10 := by
  have h9 := si_score_le w h
  refine ⟨h9, clampScore_nonneg _, ?_, bucketOf_lt_ten w h⟩
  unfold clampScore; split_ifs <;> omega

/-- Witness for C4 at a window containing the sentinel character X. -/
theorem si_score_at_most_nine_witness :
    si_score (List.replicate 19 'X') ≤ 9 ∧ bucketOf (List.replicate 19 'X') < 10 :=
  ⟨(si_score_at_most_nine (List.replicate 19 'X') (by decide)).1,
   (si_score_at_most_nine (List.replicate 19 'X') (by decide)).2.2.2⟩

lemma getD_map_range {α : Type} (f : Nat → α) (d : α) {n k : Nat} (hk : k < n) :
    ((List.range n).map f).getD k d = f k := by
  rw [List.getD_eq_getElem _ _ (by simpa using hk)]
  simp

lemma bucketStep_map_range (f : Nat → List SiEntry) (e : SiEntry)
    (he : bucketOf e.1 < 10) :
    bucketStep ((List.range 10).map f) e
      = (List.range 10).map
          (fun b => if b = bucketOf e.1 then f b ++ [e] else f b) := by
  unfold bucketStep
  rw [getD_map_range f [] he]
  apply List.ext_getElem
  · simp
  · intro n h1 h2
    simp only [List.getElem_set, List.getElem_map, List.getElem_range]
    by_cases hn : bucketOf e.1 = n
    · simp [hn]
    · simp [hn, Ne.symm hn]

lemma foldl_bucketStep (ws : List SiEntry) :
    ∀ f : Nat → List SiEntry, (∀ e ∈ ws, bucketOf e.1 < 10) →
      ws.foldl bucketStep ((List.range 10).map f)
        = (List.range 10).map
            (fun b => f b ++ ws.filter (fun e => bucketOf e.1 == b)) := by
  induction ws with
  | nil => intro f _; simp
  | cons e ws ih =>
    intro f hw
    have he : bucketOf e.1 < 10 := hw e (by simp)
    rw [List.foldl_cons, bucketStep_map_range f e he,
      ih _ (fun x hx => hw x (by simp [hx]))]
    apply List.map_congr_left
    intro b _
    by_cases hb : b = bucketOf e.1
    · simp [List.filter_cons, hb]
    · have : (bucketOf e.1 == b) = false := by
        simp only [beq_eq_false_iff_ne, ne_eq]
        exact fun hc => hb hc.symm
      simp [List.filter_cons, hb, this]

lemma si_seqs_list_eq_filter (s : List Char) :
    si_seqs_list s
      = (List.range 10).map
          (fun b => (scanWindows s).filter (fun e => bucketOf e.1 == b)) := by
  have hw : ∀ e ∈ scanWindows s, bucketOf e.1 < 10 := fun e he =>
    bucketOf_lt_ten e.1 (scanWindows_wlen s e he)
  have hinit : ([[], [], [], [], [], [], [], [], [], []] : List (List SiEntry))
      = (List.range 10).map (fun _ => []) := rfl
  unfold si_seqs_list
  rw [hinit, foldl_bucketStep _ _ hw]
  simp

lemma flatten_set_cons_perm (L : List (List SiEntry)) :
    ∀ k : Nat, k < L.length → ∀ e : SiEntry,
      ((L.set k (e :: L.getD k [])).flatten).Perm (e :: L.flatten) := by
  induction L with
  | nil => intro k hk e; simp at hk
  | cons l0 rest ih =>
    intro k hk e
    cases k with
    | zero =>
      simp only [List.getD_cons_zero, List.set_cons_zero, List.flatten_cons,
        List.cons_append]
      exact List.Perm.refl _
    | succ k =>
      have h1 : ((l0 :: rest).set (k + 1) (e :: (l0 :: rest).getD (k + 1) [])).flatten
          = l0 ++ (rest.set k (e :: rest.getD k [])).flatten := by
        simp [List.getD_cons_succ]
      rw [h1, List.flatten_cons]
      exact ((ih k (by simpa using hk) e).append_left l0).trans List.perm_middle

lemma flatten_filter_perm (ws : List SiEntry)
    (hw : ∀ e ∈ ws, bucketOf e.1 < 10) :
    (((List.range 10).map
        (fun b => ws.filter (fun e => bucketOf e.1 == b))).flatten).Perm ws := by
  induction ws with
  | nil => simp
  | cons e ws ih =>
    have he : bucketOf e.1 < 10 := hw e (by simp)
    have ihp := ih (fun x hx => hw x (by simp [hx]))
    have hset : (List.range 10).map (fun b => (e :: ws).filter (fun x => bucketOf x.1 == b))
        = ((List.range 10).map (fun b => ws.filter (fun x => bucketOf x.1 == b))).set
            (bucketOf e.1)
            (e :: ((List.range 10).map
                (fun b => ws.filter (fun x => bucketOf x.1 == b))).getD (bucketOf e.1) []) := by
      rw [getD_map_range _ [] he]
      apply List.ext_getElem
      · simp
      · intro n h1 h2
        simp only [List.getElem_set, List.getElem_map, List.getElem_range,
          List.filter_cons]
        by_cases hn : bucketOf e.1 = n
        · simp [hn]
        · have : (bucketOf e.1 == n) = false := by simp [hn]
          simp [hn, this]
    rw [hset]
    exact ((flatten_set_cons_perm _ (bucketOf e.1) (by simpa using he) e).trans
      (ihp.cons e))

/-- C2: the multiset of 1-based start offsets stored across the ten buckets
is exactly the multiset of offsets 1 to length - 18, each occurring once,
and the total window count is length - 18 (which is 0 when the sequence is
shorter than 19 characters). -/
theorem bucket_offsets_cover (s : List Char) :
    (((si_seqs_list s).flatten.map Prod.snd).Perm
        (List.range' 1 (s.length - 18)))
      ∧ (si_seqs_list s).flatten.length = s.length - 18 := by
  have hw : ∀ e ∈ scanWindows s, bucketOf e.1 < 10 := fun e he =>
    bucketOf_lt_ten e.1 (scanWindows_wlen s e he)
  have hperm : ((si_seqs_list s).flatten).Perm (scanWindows s) := by
    rw [si_seqs_list_eq_filter]
    exact flatten_filter_perm _ hw
  constructor
  · have heq : (scanWindows s).map Prod.snd = List.range' 1 (s.length - 18) := by
      rw [scanWindows, List.map_map, List.range'_eq_map_range]
      apply List.map_congr_left
      intro i _
      simp [Nat.add_comm]
    exact heq ▸ hperm.map Prod.snd
  · rw [hperm.length_eq]
    simp [scanWindows]

lemma bucketOf_of_neg (w : List Char) (hneg : si_score w < 0) : bucketOf w = 0 := by
  unfold bucketOf clampScore
  rw [if_neg (by omega)]
  rfl

/-- C3: a window whose raw score is negative is stored in bucket 0 (it is
never discarded), and no negative-raw-score window appears in any bucket
other than 0. -/
theorem negative_window_in_bucket_zero (s w : List Char) (off : Nat) :
    ((w, off) ∈ scanWindows s → si_score w < 0 →
        (w, off) ∈ (si_seqs_list s).getD 0 [])
      ∧ ∀ b : Nat, b < 10 → (w, off) ∈ (si_seqs_list s).getD b [] →
          si_score w < 0 → b = 0 := by
  have hchar := si_seqs_list_eq_filter s
  constructor
  · intro hmem hneg
    rw [hchar, getD_map_range _ [] (by norm_num)]
    apply List.mem_filter.mpr
    refine ⟨hmem, ?_⟩
    show (bucketOf w == 0) = true
    simp [bucketOf_of_neg w hneg]
  · intro b hb hmem hneg
    rw [hchar, getD_map_range _ [] hb] at hmem
    have h2 : (bucketOf w == b) = true := (List.mem_filter.mp hmem).2
    rw [bucketOf_of_neg w hneg, beq_iff_eq] at h2
    omega

/-- Witness for C3: the all-G sequence has a single window of raw score -3,
and that window is stored in bucket 0. -/
theorem negative_window_in_bucket_zero_witness :
    (List.replicate 19 'G', 1)
      ∈ (si_seqs_list (List.replicate 19 'G')).getD 0 [] :=
  (negative_window_in_bucket_zero (List.replicate 19 'G')
    (List.replicate 19 'G') 1).1 (by decide) (by decide)

/-- One left-to-right pass of `re.sub(">.*", "", full_seq)` (line 94).  The
flag records whether the scan is inside a header segment: from a '>' every
character up to, but not including, the next newline is removed. -/
def subHeaderAux : Bool → List Char → List Char
  | _, [] => []
  | true, c :: rest =>
    if c = '\n' then c :: subHeaderAux false rest else subHeaderAux true rest
  | false, c :: rest =>
    if c = '>' then subHeaderAux true rest else c :: subHeaderAux false rest

/-- The header substitution of line 94. -/
def subHeader (s : List Char) : List Char := subHeaderAux false s

/-- The characters matched by the regex class `\s` on ASCII input. -/
def pyIsSpace (c : Char) : Bool :=
  c == ' ' || c == '\t' || c == '\n' || c == '\r' || c == '\x0b' || c == '\x0c'

/-- Line 95: `re.sub("\s[0-9]", "", full_seq)` removes every non-overlapping
whitespace-then-digit pair. -/
def subWsDigit : List Char → List Char
  | [] => []
  | [c] => [c]
  | c1 :: c2 :: rest =>
    if pyIsSpace c1 && c2.isDigit then subWsDigit rest
    else c1 :: subWsDigit (c2 :: rest)

/-- Lines 96 and 101: `re.sub("U", "T", full_seq)`. -/
def subU (s : List Char) : List Char := s.map (fun c => if c = 'U' then 'T' else c)

/-- Lines 97 and 102: `re.sub("[^ATCG]", "X", full_seq)`. -/
def subNonATCG (s : List Char) : List Char :=
  s.map (fun c => if c = 'A' ∨ c = 'T' ∨ c = 'C' ∨ c = 'G' then c else 'X')

/-- Lines 94-97: normalization of file input — header substitution,
uppercasing, whitespace-digit removal, U-to-T, and the alphabet
substitution, in that order. -/
def normalize_file (s : List Char) : List Char :=
  subNonATCG (subU (subWsDigit ((subHeader s).map Char.toUpper)))

/-- Lines 100-102: normalization of a command-line string argument —
uppercasing, U-to-T, and the alphabet substitution only. -/
def normalize_str (s : List Char) : List Char :=
  subNonATCG (subU (s.map Char.toUpper))

lemma normalize_str_eq_map (s : List Char) :
    normalize_str s
      = s.map (fun c =>
          let c1 := c.toUpper
          let c2 := if c1 = 'U' then 'T' else c1
          if c2 = 'A' ∨ c2 = 'T' ∨ c2 = 'C' ∨ c2 = 'G' then c2 else 'X') := by
  unfold normalize_str subU subNonATCG
  rw [List.map_map, List.map_map]
  rfl

/-- C9: the normalization of the string branch is idempotent — normalizing
an already-normalized sequence returns it unchanged. -/
theorem normalize_str_idempotent (s : List Char) :
    normalize_str (normalize_str s) = normalize_str s := by
  rw [normalize_str_eq_map s, normalize_str_eq_map, List.map_map]
  apply List.map_congr_left
  intro c _
  simp only [Function.comp]
  set c1 := c.toUpper with hc1
  by_cases h2 : (if c1 = 'U' then 'T' else c1) = 'A'
      ∨ (if c1 = 'U' then 'T' else c1) = 'T'
      ∨ (if c1 = 'U' then 'T' else c1) = 'C'
      ∨ (if c1 = 'U' then 'T' else c1) = 'G'
  · rw [if_pos h2]
    rcases h2 with h | h | h | h <;> rw [h] <;> decide
  · rw [if_neg h2]
    decide

/-- Header-line removal exactly as claim C5 words it: a line starting with
'>' is removed together with its line terminator.  The first flag is true at
the start of a line, the second while skipping a header line. -/
def stripHLAux : Bool → Bool → List Char → List Char
  | _, _, [] => []
  | _, true, c :: rest =>
    if c = '\n' then stripHLAux true false rest else stripHLAux false true rest
  | atStart, false, c :: rest =>
    if atStart ∧ c = '>' then stripHLAux false true rest
    else if c = '\n' then c :: stripHLAux true false rest
    else c :: stripHLAux false false rest

/-- Removal of every header line, claim C5's reading. -/
def stripHeaderLinesSpec (s : List Char) : List Char := stripHLAux true false s

/-- Normalization exactly as claim C5 states it: remove every header line
together with its terminator, uppercase, substitute U with T, replace every
character outside the DNA alphabet with X. -/
def normalizeSpecC5 (s : List Char) : List Char :=
  subNonATCG (subU ((stripHeaderLinesSpec s).map Char.toUpper))

/-- Counterexample to C5: on the FASTA input consisting of the header line
followed by AAA, the script keeps the header's line terminator (which the
alphabet substitution then turns into X), so the normalized output is XAAA,
not the AAA demanded by the claim. -/
theorem normalize_header_counterexample :
    normalize_file ['>', 'h', '\n', 'A', 'A', 'A'] = ['X', 'A', 'A', 'A']
      ∧ normalizeSpecC5 ['>', 'h', '\n', 'A', 'A', 'A'] = ['A', 'A', 'A']
      ∧ normalize_file ['>', 'h', '\n', 'A', 'A', 'A']
          ≠ normalizeSpecC5 ['>', 'h', '\n', 'A', 'A', 'A'] := by
  refine ⟨by decide, by decide, by decide⟩

/-- Header-segment removal as the amended claim describes it: within each
line, the characters from the first '>' (anywhere in the line) through the
end of the line are removed, while the line terminator itself is kept. -/
def stripHeaderSegments (s : List Char) : List Char :=
  match hrest : s.dropWhile (fun c => !(c == '>')) with
  | [] => s.takeWhile (fun c => !(c == '>'))
  | _ :: tail =>
    s.takeWhile (fun c => !(c == '>'))
      ++ stripHeaderSegments (tail.dropWhile (fun c => !(c == '\n')))
termination_by s.length
decreasing_by
  have h1 : (tail.dropWhile (fun c => !(c == '\n'))).length ≤ tail.length :=
    (List.dropWhile_sublist _).length_le
  have h2 : (s.dropWhile (fun c => !(c == '>'))).length ≤ s.length :=
    (List.dropWhile_sublist _).length_le
  rw [hrest] at h2
  simp only [List.length_cons] at h2
  omega

lemma subHeaderAux_true_skip (t : List Char) :
    subHeaderAux true t = subHeaderAux false (t.dropWhile (fun c => !(c == '\n'))) := by
  induction t with
  | nil => rfl
  | cons c r ih =>
    by_cases hc : c = '\n'
    · rw [hc]
      simp [subHeaderAux, List.dropWhile_cons]
    · simp [subHeaderAux, List.dropWhile_cons, hc, ih]

lemma subHeaderAux_false_split (s : List Char) :
    subHeaderAux false s
      = s.takeWhile (fun c => !(c == '>'))
        ++ (match s.dropWhile (fun c => !(c == '>')) with
            | [] => []
            | _ :: tail => subHeaderAux true tail) := by
  induction s with
  | nil => rfl
  | cons c t ih =>
    by_cases hc : c = '>'
    · rw [hc]
      simp [subHeaderAux, List.takeWhile_cons, List.dropWhile_cons]
    · simp only [subHeaderAux, List.takeWhile_cons, List.dropWhile_cons]
      have hb : (!(c == '>')) = true := by simp [hc]
      rw [if_neg hc, hb]
      simp only [if_true]
      rw [ih, List.cons_append]

lemma subHeader_eq_stripSegments_aux :
    ∀ n : Nat, ∀ s : List Char, s.length ≤ n →
      subHeader s = stripHeaderSegments s := by
  intro n
  induction n with
  | zero =>
    intro s hs
    have hnil : s = [] := List.eq_nil_of_length_eq_zero (Nat.le_zero.mp hs)
    subst hnil
    rw [stripHeaderSegments]
    simp [subHeader, subHeaderAux]
  | succ n ih =>
    intro s hs
    rw [stripHeaderSegments]
    unfold subHeader
    rw [subHeaderAux_false_split s]
    cases hrest : s.dropWhile (fun c => !(c == '>')) with
    | nil => simp
    | cons c tail =>
      have htail : tail.length < s.length := by
        have h2 : (s.dropWhile (fun c => !(c == '>'))).length ≤ s.length :=
          (List.dropWhile_sublist _).length_le
        rw [hrest] at h2
        simp only [List.length_cons] at h2
        omega
      have hdroplen : (tail.dropWhile (fun c => !(c == '\n'))).length ≤ n := by
        have := (List.dropWhile_sublist (p := fun c => !(c == '\n')) (l := tail)).length_le
        omega
      dsimp only
      rw [subHeaderAux_true_skip tail]
      exact congrArg (fun t => List.takeWhile (fun c => !(c == '>')) s ++ t)
        (ih _ hdroplen)

lemma subHeader_eq_stripSegments (s : List Char) :
    subHeader s = stripHeaderSegments s :=
  subHeader_eq_stripSegments_aux s.length s (Nat.le_refl _)

/-- Amended C5: file-branch normalization removes, within each line, the
characters from the first '>' through the end of the line while keeping the
line terminator (which the final alphabet substitution maps to X); it then
uppercases, removes every whitespace-digit pair, substitutes U with T, and
replaces every character outside the DNA alphabet with X.  The string branch
performs only the last three steps. -/
theorem normalize_file_amended (s : List Char) :
    normalize_file s
      = subNonATCG (subU (subWsDigit ((stripHeaderSegments s).map Char.toUpper))) := by
  unfold normalize_file
  rw [subHeader_eq_stripSegments]

/-- Counterexample to C6: the input "A 1CGT" contains no '>' at all (so no
header line can be stripped), yet file-branch normalization shortens it from
6 to 4 characters, because line 95 of the script deletes every
whitespace-digit pair.  Characters are therefore removed that belong to no
header line. -/
theorem normalize_length_counterexample :
    ('>' ∉ ['A', ' ', '1', 'C', 'G', 'T'])
      ∧ normalize_file ['A', ' ', '1', 'C', 'G', 'T'] = ['A', 'C', 'G', 'T']
      ∧ (normalize_file ['A', ' ', '1', 'C', 'G', 'T']).length = 4
      ∧ ([('A' : Char), ' ', '1', 'C', 'G', 'T']).length = 6 := by
  refine ⟨by decide, by decide, by decide, by decide⟩

/-- Amended C6: the string branch of normalization preserves length exactly
(it only replaces characters in place); in the file branch every length
change happens in the header substitution and the whitespace-digit removal,
the three character substitutions being length-preserving maps. -/
theorem normalize_length_amended (s : List Char) :
    (normalize_str s).length = s.length
      ∧ (normalize_file s).length
          = (subWsDigit ((subHeader s).map Char.toUpper)).length := by
  constructor
  · unfold normalize_str subU subNonATCG
    simp
  · unfold normalize_file subU subNonATCG
    simp

/-- Line 117 of the script: the header row of the report. -/
def headerLine : List Char :=
  ("Score:\t\t9\t\t\t\t8\t\t\t\t7\t\t\t\t6\t\t\t\t5\t\t\t\t4\t\t\t\t3\t\t\t\t2\t\t\t\t1\t\t\t\t0\n").data

/-- Python's `str.ljust(5)`: pad on the right with spaces to width 5. -/
def ljust5 (l : List Char) : List Char := l ++ List.replicate (5 - l.length) ' '

/-- Line 121: one rendered cell, `"%s— %s\t" % (str(offset).ljust(5), seq)`. -/
def cellText (e : SiEntry) : List Char :=
  ljust5 (Nat.repr e.2).data ++ ("— ").data ++ e.1 ++ ['\t']

/-- Line 123: the placeholder emitted for an absent entry. -/
def blankCell : List Char := ['\t', '\t', '\t', '\t']

/-- Lines 111-114: the size of the largest bucket. -/
def maxRows (buckets : List (List SiEntry)) : Nat :=
  buckets.foldl (fun m b => if m < b.length then b.length else m) 0

/-- Lines 117-124: the rendered table, accumulated row by row exactly as the
script's nested loops build the `output` string. -/
def tableOutput (full_seq : List Char) : List Char :=
  let buckets := si_seqs_list full_seq
  (List.range (maxRows buckets)).foldl
    (fun acc row =>
      ([9, 8, 7, 6, 5, 4, 3, 2, 1, 0].foldl
        (fun acc2 index =>
          if row < (buckets.getD index []).length then
            acc2 ++ cellText ((buckets.getD index []).getD row ([], 0))
          else acc2 ++ blankCell)
        acc) ++ ['\n'])
    headerLine

/-- Line 127: `re.sub("\t{4}", ",,", output)`. -/
def subTab4 : List Char → List Char
  | '\t' :: '\t' :: '\t' :: '\t' :: rest => ',' :: ',' :: subTab4 rest
  | c :: rest => c :: subTab4 rest
  | [] => []

/-- Line 128: `re.sub("\t{2}", ",", output)`. -/
def subTab2 : List Char → List Char
  | '\t' :: '\t' :: rest => ',' :: subTab2 rest
  | c :: rest => c :: subTab2 rest
  | [] => []

/-- Line 129: `re.sub("\t", ",", output)`. -/
def subTabOne (s : List Char) : List Char :=
  s.map (fun c => if c = '\t' then ',' else c)

/-- Line 130: `re.sub("—", ",", output)`. -/
def subDash (s : List Char) : List Char :=
  s.map (fun c => if c = '—' then ',' else c)

/-- Line 131: `re.sub(" ", "", output)`. -/
def subSpace (s : List Char) : List Char := s.filter (fun c => !(c == ' '))

/-- Lines 126-131: the CSV post-processing of the table text. -/
def csvTransform (s : List Char) : List Char :=
  subSpace (subDash (subTabOne (subTab2 (subTab4 s))))

/-- The whole pipeline for a string-argument run of the script: normalize
(string branch), scan, score, bucket, render, and optionally CSV-transform;
the contract surface `score_and_rank(raw_sequence, csv_mode)` of the
specification. -/
def score_and_rank (s : List Char) (csv : Bool) : List Char :=
  let full_seq := normalize_str s
  if csv then csvTransform (tableOutput full_seq) else tableOutput full_seq

lemma scanWindows_of_short (t : List Char) (h : t.length < 19) :
    scanWindows t = [] := by
  unfold scanWindows
  have h0 : t.length - 18 = 0 := by omega
  rw [h0]
  rfl

lemma tableOutput_of_no_windows (t : List Char) (h : scanWindows t = []) :
    tableOutput t = headerLine := by
  unfold tableOutput si_seqs_list
  rw [h]
  rfl

/-- C8: when the normalized sequence is shorter than 19 characters the
pipeline produces no windows and the report is exactly the header row, with
zero data rows, in both table mode and CSV mode (each output is a single
line). -/
theorem short_sequence_header_only (s : List Char)
    (h : (normalize_str s).length < 19) :
    scanWindows (normalize_str s) = []
      ∧ score_and_rank s false = headerLine
      ∧ score_and_rank s true = csvTransform headerLine
      ∧ (score_and_rank s false).count '\n' = 1
      ∧ (score_and_rank s true).count '\n' = 1 := by
  have hscan := scanWindows_of_short (normalize_str s) h
  have htab := tableOutput_of_no_windows (normalize_str s) hscan
  have hf : score_and_rank s false = headerLine := by
    unfold score_and_rank
    simpa using htab
  have ht : score_and_rank s true = csvTransform headerLine := by
    unfold score_and_rank
    simp [htab]
  refine ⟨hscan, hf, ht, ?_, ?_⟩
  · rw [hf]; decide
  · rw [ht]; decide

/-- Witness for C8 at a concrete sequence of length 18. -/
theorem short_sequence_header_only_witness :
    scanWindows (normalize_str (List.replicate 18 'A')) = []
      ∧ score_and_rank (List.replicate 18 'A') false = headerLine
      ∧ score_and_rank (List.replicate 18 'A') true = csvTransform headerLine
      ∧ (score_and_rank (List.replicate 18 'A') false).count '\n' = 1
      ∧ (score_and_rank (List.replicate 18 'A') true).count '\n' = 1 :=
  short_sequence_header_only (List.replicate 18 'A') (by decide)

/-- C10: the pipeline is deterministic — evaluating `score_and_rank` twice
on the same sequence and output-mode flag yields identical report text, the
computation being a pure function of its two arguments. -/
theorem score_and_rank_deterministic (s : List Char) (csv : Bool) :
    score_and_rank s csv = score_and_rank s csv := rfl

/-- The bucket labels in the strictly descending order the report visits. -/
def bucketLabels : List Nat := [9, 8, 7, 6, 5, 4, 3, 2, 1, 0]

/-- The header row as the claim describes it: the score column title
followed by the ten bucket labels in strictly descending order,
tab-delimited. -/
def headerSpec : List Char :=
  ("Score:\t\t").data
    ++ List.intercalate ("\t\t\t\t").data
        (bucketLabels.map (fun n => (Nat.repr n).data))
    ++ ['\n']

/-- One cell of the claim's description: a present entry renders as the
offset-window cell, an absent one as the blank placeholder. -/
def cellSpec (buckets : List (List SiEntry)) (row index : Nat) : List Char :=
  if row < (buckets.getD index []).length then
    cellText ((buckets.getD index []).getD row ([], 0))
  else blankCell

/-- One data row of the claim's description: the buckets visited in
descending order, one cell each, terminated by a newline. -/
def rowSpec (buckets : List (List SiEntry)) (row : Nat) : List Char :=
  (bucketLabels.map (cellSpec buckets row)).flatten ++ ['\n']

/-- The number of data rows as the specification words it: the size of the
largest bucket. -/
def maxRowsSpec (buckets : List (List SiEntry)) : Nat :=
  (buckets.map List.length).foldl (fun m n => max m n) 0

/-- The table as the claim describes it: the header row, then one row per
row index from 0 to the largest bucket size minus one. -/
def tableSpec (full_seq : List Char) : List Char :=
  headerSpec
    ++ ((List.range (maxRowsSpec (si_seqs_list full_seq))).map
          (rowSpec (si_seqs_list full_seq))).flatten

lemma headerLine_eq_spec : headerLine = headerSpec := by decide

lemma maxRows_eq_spec (buckets : List (List SiEntry)) :
    maxRows buckets = maxRowsSpec buckets := by
  unfold maxRows maxRowsSpec
  rw [List.foldl_map]
  have hfun : (fun (m : Nat) (b : List SiEntry) => if m < b.length then b.length else m)
      = fun m b => max m b.length := by
    funext m b
    rw [max_def]
    split_ifs <;> omega
  rw [hfun]

lemma foldl_append_flatten {α : Type} (g : α → List Char) :
    ∀ (l : List α) (init : List Char),
      l.foldl (fun a x => a ++ g x) init = init ++ (l.map g).flatten := by
  intro l
  induction l with
  | nil => intro init; simp
  | cons x t ih =>
    intro init
    rw [List.foldl_cons, ih, List.map_cons, List.flatten_cons, List.append_assoc]

lemma innerFold_eq (buckets : List (List SiEntry)) (row : Nat) (acc : List Char) :
    ([9, 8, 7, 6, 5, 4, 3, 2, 1, 0].foldl
        (fun acc2 index =>
          if row < (buckets.getD index []).length then
            acc2 ++ cellText ((buckets.getD index []).getD row ([], 0))
          else acc2 ++ blankCell)
        acc)
      = acc ++ (bucketLabels.map (cellSpec buckets row)).flatten := by
  have hstep : (fun (acc2 : List Char) (index : Nat) =>
      if row < (buckets.getD index []).length then
        acc2 ++ cellText ((buckets.getD index []).getD row ([], 0))
      else acc2 ++ blankCell)
      = fun acc2 index => acc2 ++ cellSpec buckets row index := by
    funext a i
    unfold cellSpec
    split_ifs <;> rfl
  rw [hstep]
  exact foldl_append_flatten (cellSpec buckets row) bucketLabels acc

/-- C7: the rendered report is the header row listing the bucket labels in
strictly descending order 9 to 0, followed by one row per row index from 0
to the largest bucket size minus one; within each row the buckets are
visited in descending order, a present entry rendering as its offset-window
cell and an absent one as the blank placeholder of four tab stops, columns
tab-delimited. -/
theorem tableOutput_matches_report_shape (full_seq : List Char) :
    tableOutput full_seq = tableSpec full_seq := by
  simp only [tableOutput, tableSpec]
  rw [maxRows_eq_spec]
  have hstep2 : (fun (acc : List Char) (row : Nat) =>
      ([9, 8, 7, 6, 5, 4, 3, 2, 1, 0].foldl
        (fun acc2 index =>
          if row < ((si_seqs_list full_seq).getD index []).length then
            acc2 ++ cellText (((si_seqs_list full_seq).getD index []).getD row ([], 0))
          else acc2 ++ blankCell)
        acc) ++ ['\n'])
      = fun acc row => acc ++ rowSpec (si_seqs_list full_seq) row := by
    funext a r
    rw [innerFold_eq, List.append_assoc]
    rfl
  rw [hstep2,
    foldl_append_flatten (rowSpec (si_seqs_list full_seq))
      (List.range (maxRowsSpec (si_seqs_list full_seq))) headerLine,
    headerLine_eq_spec]
